import Mathlib

/-
Verification of the `bktree` crate (IGI-111/bktree).

The development shallowly embeds `src/lib.rs` and `src/distance.rs`:

* `Node T` mirrors `struct Node<T> { word: T, children: Vec<(isize, Node<T>)> }`,
  with `isize` modelled as `Int` and `Vec` as `List`.
* `BkTree T` mirrors `struct BkTree<T, D> { root: Option<Node<T>>, dist: D }`,
  with the metric carried as a plain function `T → T → Int`
  (`D: Distance<T>` is a strategy object whose only capability is
  `fn distance(&self, a: &T, b: &T) -> isize`).
* `BkTree::insert`'s in-place loop is embedded as the structurally recursive
  `insertNode`/`insertChildren` pair: the loop body at node `u` computes
  `k = dist(u.word, val)`, returns when `k == 0`, descends into the first child
  whose edge label equals `k`, and otherwise pushes `(k, leaf val)` at the end
  of `u.children`.
* `BkTree::find`'s `while let Some(n) = candidates.pop_front()` loop over a
  `VecDeque` is embedded as `findGo`, recursion on an explicit fuel argument.
  A queue step pops the node `n` (of size `≥ 1 + size of its children`) and
  enqueues at most the children admitted by the pruning filter
  `(*arc - distance).abs() <= max_dist`, so the total size of the queue
  strictly decreases and `Node.size root` steps always run the loop to
  completion (`findGo_mono` below makes the fuel irrelevance precise).
* Both iterators (`IntoIter::next` and `Iter::next`) pop the last element of a
  `Vec` used as a stack and push the popped node's children in list order.
  They are embedded as `intoIterGo` and `iterGo`, where the stack is
  represented with its top (the `Vec`'s last element) at the head of the list:
  `Vec::pop` is head removal and extending with children `c₁ … cₖ` (leaving
  `cₖ` on top) prepends the reversed child list.  The same fuel argument
  bounds the number of pops.
* `LevenshteinDistance::distance` (single-row dynamic programming over
  `chars()`) is embedded as `levInner` (the inner `for (ia, ca)` loop, with
  the mutable row `cache` passed as the list of cells still to be visited and
  returned as the list of updated cells) and `levOuter` (the outer
  `for (ib, cb)` loop).  Strings are taken to their `List Char` of unicode
  scalar values, matching `str::chars`.
* `HammingDistance::distance` is `(a ^ b).count_ones()`; machine integers are
  modelled by their bit patterns as `Nat` and `count_ones` as `popCount`.
-/

namespace BK

/-- `struct Node<T> { word: T, children: Vec<(isize, Node<T>)> }`. -/
inductive Node (T : Type) : Type where
  | mk (word : T) (children : List (Int × Node T)) : Node T

/-- Field accessor for `Node::word`. -/
def Node.word {T} : Node T → T
  | .mk w _ => w

/-- Field accessor for `Node::children`. -/
def Node.children {T} : Node T → List (Int × Node T)
  | .mk _ cs => cs

@[simp] theorem Node.word_mk {T} (w : T) (cs) : (Node.mk w cs).word = w := rfl

@[simp] theorem Node.children_mk {T} (w : T) (cs) : (Node.mk w cs).children = cs := rfl

mutual
/-- Number of nodes in the subtree rooted at `n`. -/
def Node.size {T} : Node T → Nat
  | .mk _ cs => 1 + sizeL cs

/-- Number of nodes in a child list. -/
def sizeL {T} : List (Int × Node T) → Nat
  | [] => 0
  | p :: ps => Node.size p.2 + sizeL ps
end

mutual
/-- Items stored in the subtree rooted at `n` (the node's word first,
then the children in order). -/
def Node.elems {T} : Node T → List T
  | .mk w cs => w :: elemsL cs

/-- Items stored in a child list. -/
def elemsL {T} : List (Int × Node T) → List T
  | [] => []
  | p :: ps => Node.elems p.2 ++ elemsL ps
end

mutual
/-- The loop of `BkTree::insert`, acting on the subtree rooted at the current
node `u = Node.mk w cs`: compute `k = dist(u.word, val)`; if `k == 0` return
with the tree unchanged; otherwise look up the first child edge labeled `k`. -/
def insertNode {T} (d : T → T → Int) (val : T) : Node T → Node T
  | .mk w cs =>
    if d w val = 0 then .mk w cs
    else .mk w (insertChildren d val (d w val) cs)

/-- Child lookup of `BkTree::insert`: descend into the first child whose edge
label is `k` (`children.iter().position(|(dist, _)| *dist == k)`), and if there
is none, `push` a new leaf holding `val` at edge label `k`. -/
def insertChildren {T} (d : T → T → Int) (val : T) (k : Int) :
    List (Int × Node T) → List (Int × Node T)
  | [] => [(k, .mk val [])]
  | (arc, c) :: rest =>
    if arc = k then (arc, insertNode d val c) :: rest
    else (arc, c) :: insertChildren d val k rest
end

mutual
/-- Whether the `BkTree::insert` walk starting at this node hits `k == 0`
(and hence returns leaving the tree unchanged, silently discarding `val`). -/
def discardsNode {T} (d : T → T → Int) (val : T) : Node T → Bool
  | .mk w cs =>
    if d w val = 0 then true
    else discardsChildren d val (d w val) cs

/-- Whether the insert walk, looking for edge label `k` in a child list,
continues into an existing child and eventually hits a distance-0 node. -/
def discardsChildren {T} (d : T → T → Int) (val : T) (k : Int) :
    List (Int × Node T) → Bool
  | [] => false
  | (arc, c) :: rest =>
    if arc = k then discardsNode d val c
    else discardsChildren d val k rest
end

/-- `struct BkTree<T, D> { root: Option<Node<T>>, dist: D }`. -/
structure BkTree (T : Type) where
  root : Option (Node T)
  dist : T → T → Int

/-- `BkTree::new`: empty tree bound to the given distance function. -/
def BkTree.new {T} (d : T → T → Int) : BkTree T := ⟨none, d⟩

/-- `BkTree::insert`: an empty tree gets `val` as root, otherwise run the
insertion walk from the root. -/
def BkTree.insert {T} (t : BkTree T) (val : T) : BkTree T :=
  match t.root with
  | none => ⟨some (.mk val []), t.dist⟩
  | some r => ⟨some (insertNode t.dist val r), t.dist⟩

/-- `BkTree::insert_all`: insert every element of the list in order. -/
def BkTree.insertAll {T} (t : BkTree T) (ws : List T) : BkTree T :=
  ws.foldl BkTree.insert t

/-- A tree built from the empty tree by inserting `ws` in order. -/
def build {T} (d : T → T → Int) (ws : List T) : BkTree T :=
  (BkTree.new d).insertAll ws

/-- Total number of nodes sitting in a work queue. -/
def queueSize {T} : List (Node T) → Nat
  | [] => 0
  | n :: q => n.size + queueSize q

/-- The `while let Some(n) = candidates.pop_front()` loop of `BkTree::find`,
as recursion on a fuel bound for the number of loop iterations: pop the front
node `n`, compute `distance = dist(n.word, val)`, emit `(n.word, distance)`
when `distance <= max_dist`, and push back exactly the children passing the
pruning filter `(*arc - distance).abs() <= max_dist`. -/
def findGo {T} (d : T → T → Int) (val : T) (maxDist : Int) :
    Nat → List (Node T) → List (T × Int)
  | 0, _ => []
  | _, [] => []
  | fuel + 1, n :: rest =>
    (if d n.word val ≤ maxDist then [(n.word, d n.word val)] else []) ++
      findGo d val maxDist fuel
        (rest ++ (n.children.filter
          (fun p => ((p.1 - d n.word val).natAbs : Int) ≤ maxDist)).map Prod.snd)

/-- `BkTree::find`: empty result on the empty tree, otherwise run the queue
loop seeded with the root.  `Node.size root` iterations always exhaust the
queue, because each iteration strictly decreases `queueSize`. -/
def BkTree.find {T} (t : BkTree T) (val : T) (maxDist : Int) : List (T × Int) :=
  match t.root with
  | none => []
  | some r => findGo t.dist val maxDist r.size [r]

/-- The sequence of items produced by exhausting `IntoIter::next`: pop the top
of the stack, push the popped node's children in list order, yield its word.
The stack top is the list head, so pushing children `c₁ … cₖ` (leaving `cₖ`
on top) prepends the reversed child list. -/
def intoIterGo {T} : Nat → List (Node T) → List T
  | 0, _ => []
  | _, [] => []
  | fuel + 1, n :: rest =>
    n.word :: intoIterGo fuel ((n.children.map Prod.snd).reverse ++ rest)

/-- The sequence of items produced by exhausting `Iter::next` (the
by-reference iterator); the algorithm is the same stack traversal as
`IntoIter::next`. -/
def iterGo {T} : Nat → List (Node T) → List T
  | 0, _ => []
  | _, [] => []
  | fuel + 1, n :: rest =>
    n.word :: iterGo fuel ((n.children.map Prod.snd).reverse ++ rest)

/-- `BkTree::into_iter`, exhausted into a list: stack seeded with the root. -/
def BkTree.intoIterList {T} (t : BkTree T) : List T :=
  match t.root with
  | none => []
  | some r => intoIterGo r.size [r]

/-- `BkTree::iter`, exhausted into a list: stack seeded with the root. -/
def BkTree.iterList {T} (t : BkTree T) : List T :=
  match t.root with
  | none => []
  | some r => iterGo r.size [r]

/-- Items stored in a tree. -/
def BkTree.elems {T} (t : BkTree T) : List T :=
  match t.root with
  | none => []
  | some r => r.elems

/-- Whether inserting `val` would be silently discarded by the distance-0
check of the insertion walk. -/
def BkTree.discards {T} (t : BkTree T) (val : T) : Bool :=
  match t.root with
  | none => false
  | some r => discardsNode t.dist val r

/-- The items a sequence of insertions actually stores: each element of the
list in order, dropped exactly when the insertion walk discards it as a
distance-0 duplicate. -/
def storedList {T} : BkTree T → List T → List T
  | _, [] => []
  | t, w :: ws =>
    if t.discards w then storedList (t.insert w) ws
    else w :: storedList (t.insert w) ws

/-- `u32::count_ones` on a bit pattern. -/
def popCount : Nat → Nat
  | 0 => 0
  | n + 1 => (n + 1) % 2 + popCount ((n + 1) / 2)

/-- `HammingDistance::distance`: `(*a ^ *b).count_ones() as isize`, on
machine integers modelled by their bit patterns. -/
def HammingDistance.distance (a b : Nat) : Int :=
  (popCount (a ^^^ b) : Int)

/-- Inner loop `for (ia, ca) in a.chars().enumerate()` of
`LevenshteinDistance::distance`.  Arguments: the remaining characters of `a`,
the cells of `cache` from position `ia` on, and the current values of the
mutable `a_dist` and `res`.  Returns the updated cells `cache[ia..]` and the
final value of `res`. -/
def levInner (cb : Char) : List Char → List Nat → Nat → Nat → List Nat × Nat
  | [], _, _, res => ([], res)
  | _ :: _, [], _, res => ([], res)
  | ca :: ta, c :: cache, aDist, res =>
    let bDist := if ca = cb then aDist else aDist + 1
    let aDist2 := c
    let res2 :=
      if aDist2 > res then (if bDist > res then res + 1 else bDist)
      else if bDist > aDist2 then aDist2 + 1 else bDist
    let rest := levInner cb ta cache aDist2 res2
    (res2 :: rest.1, rest.2)

/-- Outer loop `for (ib, cb) in b.chars().enumerate()` of
`LevenshteinDistance::distance`: at index `ib` reset `res = ib; a_dist = ib`,
run the inner loop over all of `a` and the full row `cache`, and continue
with the updated row. -/
def levOuter (a : List Char) : List Char → Nat → List Nat → Nat → Nat
  | [], _, _, res => res
  | cb :: bs, ib, cache, _ =>
    let st := levInner cb a cache ib ib
    levOuter a bs (ib + 1) st.1 st.2

/-- `LevenshteinDistance::distance`: early exits for equal strings and for an
empty side, then the single-row dynamic programming with
`cache = (1..).take(a_len).collect()`. -/
def LevenshteinDistance.distance (a b : String) : Int :=
  if a = b then 0
  else
    if a.data.length = 0 then (b.data.length : Int)
    else if b.data.length = 0 then (a.data.length : Int)
    else (levOuter a.data b.data 0 (List.range' 1 a.data.length) 0 : Int)

/-- Items stored in all subtrees sitting in a work stack. -/
def elemsQ {T} : List (Node T) → List T
  | [] => []
  | n :: q => n.elems ++ elemsQ q

/-- Structural well-formedness maintained by `insert`: in every node's child
list, edge labels are pairwise distinct and never `0`. -/
inductive NodeWF {T} : Node T → Prop where
  | mk (w : T) (cs : List (Int × Node T))
      (hnodup : (cs.map Prod.fst).Nodup)
      (harcs : ∀ p ∈ cs, p.1 ≠ 0)
      (hrec : ∀ p ∈ cs, NodeWF p.2) : NodeWF (Node.mk w cs)

/-- The BK-tree metric invariant maintained by `insert`: every item stored in
a child subtree reached by an edge labelled `arc` is at distance exactly
`arc` from this node's word. -/
inductive BkInv {T} (d : T → T → Int) : Node T → Prop where
  | mk (w : T) (cs : List (Int × Node T))
      (hdist : ∀ p ∈ cs, ∀ y ∈ p.2.elems, d w y = p.1)
      (hrec : ∀ p ∈ cs, BkInv d p.2) : BkInv d (Node.mk w cs)

/-- Reference Levenshtein distance: the textbook recursion peeling first
characters, with substitution cost `0`/`1` and insertion/deletion cost `1`. -/
def levRef : List Char → List Char → Nat
  | [], ys => ys.length
  | _ :: xs, [] => xs.length + 1
  | x :: xs, y :: ys =>
    min ((if x = y then 0 else 1) + levRef xs ys)
      (min (1 + levRef xs (y :: ys)) (1 + levRef (x :: xs) ys))
termination_by xs ys => xs.length + ys.length
decreasing_by all_goals (simp; try omega)

/-- Edit distance consuming the lists from the tail: this is the quantity the
single-row dynamic programming of `LevenshteinDistance::distance` tracks for
prefixes of its inputs. -/
def levT (xs ys : List Char) : Nat := levRef xs.reverse ys.reverse

/-- The expected contents of the suffix of the dynamic-programming row
`cache` covering the characters `rem` that follow the prefix `base` of `a`:
the cell for position `i` holds the edit distance between the prefix of `a`
ending there and the processed prefix `ys` of `b`. -/
def rowOf (base rem ys : List Char) : List Nat :=
  match rem with
  | [] => []
  | c :: rest => levT (base ++ [c]) ys :: rowOf (base ++ [c]) rest ys

/-! ### Basic structural lemmas -/

/-- Induction over `Node` with the hypothesis available for every child. -/
theorem Node.ind {T} {motive : Node T → Prop}
    (h : ∀ w cs, (∀ p ∈ cs, motive p.2) → motive (Node.mk w cs)) : ∀ n, motive n := by
  intro n
  refine @Node.rec T motive (fun l => ∀ p ∈ l, motive p.2) (fun p => motive p.2)
    ?_ ?_ ?_ ?_ n
  · exact fun w cs ih => h w cs ih
  · intro p hp; cases hp
  · intro hd tl hhd htl p hp
    simp only [List.mem_cons] at hp
    rcases hp with rfl | hmem
    · exact hhd
    · exact htl p hmem
  · exact fun _ _ ih => ih

@[simp] theorem size_mk {T} (w : T) (cs) : (Node.mk w cs).size = 1 + sizeL cs := by
  simp [Node.size]

@[simp] theorem sizeL_nil {T} : sizeL (T := T) [] = 0 := by simp [sizeL]

@[simp] theorem sizeL_cons {T} (p : Int × Node T) (ps) :
    sizeL (p :: ps) = p.2.size + sizeL ps := by simp [sizeL]

@[simp] theorem elems_mk {T} (w : T) (cs) : (Node.mk w cs).elems = w :: elemsL cs := by
  simp [Node.elems]

@[simp] theorem elemsL_nil {T} : elemsL (T := T) [] = [] := by simp [elemsL]

@[simp] theorem elemsL_cons {T} (p : Int × Node T) (ps) :
    elemsL (p :: ps) = p.2.elems ++ elemsL ps := by simp [elemsL]

@[simp] theorem queueSize_nil {T} : queueSize (T := T) [] = 0 := rfl

@[simp] theorem queueSize_cons {T} (n : Node T) (q) :
    queueSize (n :: q) = n.size + queueSize q := rfl

@[simp] theorem insert_dist {T} (t : BkTree T) (val : T) :
    (t.insert val).dist = t.dist := by
  unfold BkTree.insert
  split <;> rfl

@[simp] theorem insertAll_dist {T} (t : BkTree T) (ws : List T) :
    (t.insertAll ws).dist = t.dist := by
  induction ws generalizing t with
  | nil => rfl
  | cons w ws ih =>
    show ((t.insert w).insertAll ws).dist = t.dist
    rw [ih, insert_dist]

@[simp] theorem build_dist {T} (d : T → T → Int) (ws : List T) :
    (build d ws).dist = d := insertAll_dist _ _

theorem queueSize_append {T} (q r : List (Node T)) :
    queueSize (q ++ r) = queueSize q + queueSize r := by
  induction q with
  | nil => simp
  | cons n q ih => simp [ih]; omega

theorem sizeL_pos_elem {T} (cs : List (Int × Node T)) (p) (hp : p ∈ cs) :
    p.2.size ≤ sizeL cs := by
  induction cs with
  | nil => cases hp
  | cons hd tl ih =>
    simp only [List.mem_cons] at hp
    rcases hp with rfl | hmem
    · simp
    · have := ih hmem
      simp; omega

theorem size_elems {T} : ∀ n : Node T, n.size = n.elems.length := by
  intro n
  induction n using Node.ind with
  | h w cs ih =>
    simp only [size_mk, elems_mk, List.length_cons]
    have : sizeL cs = (elemsL cs).length := by
      induction cs with
      | nil => simp
      | cons hd tl ihcs =>
        have h1 := ih hd (by simp)
        have h2 := ihcs (fun p hp => ih p (by simp [hp]))
        simp [h1, h2]
    omega

theorem queueSize_filter_children {T} (cs : List (Int × Node T)) (p : Int × Node T → Bool) :
    queueSize ((cs.filter p).map Prod.snd) ≤ sizeL cs := by
  induction cs with
  | nil => simp
  | cons hd tl ih =>
    by_cases h : p hd
    · simp [List.filter_cons, h]
      omega
    · simp [List.filter_cons, h]
      omega

/-! ### Claim C2: soundness of `find` -/

theorem findGo_sound {T} (d : T → T → Int) (val : T) (m : Int) :
    ∀ (fuel : Nat) (q : List (Node T)) (w : T) (dd : Int),
      (w, dd) ∈ findGo d val m fuel q → dd = d w val ∧ dd ≤ m := by
  intro fuel
  induction fuel with
  | zero => intro q w dd h; simp [findGo] at h
  | succ fuel ih =>
    intro q w dd h
    match q with
    | [] => simp [findGo] at h
    | n :: rest =>
      rw [findGo] at h
      rcases List.mem_append.1 h with hl | hr
      · split at hl
        · simp at hl
          obtain ⟨rfl, rfl⟩ := hl
          exact ⟨rfl, by assumption⟩
        · simp at hl
      · exact ih _ w dd hr

/-- Claim C2: every pair `(item, d)` returned by `find(query, max_dist)`
satisfies `d == dist(item, query)` and `d <= max_dist` (so no pair whose
distance exceeds the bound ever appears), and `find` on an empty tree
returns the empty collection. -/
theorem bk_find_sound {T} (t : BkTree T) (val : T) (maxDist : Int) (w : T) (dd : Int)
    (h : (w, dd) ∈ t.find val maxDist) :
    (dd = t.dist w val ∧ dd ≤ maxDist) ∧
      (∀ (d : T → T → Int) (q : T) (m : Int), (BkTree.new d).find q m = []) := by
  refine ⟨?_, fun d q m => rfl⟩
  unfold BkTree.find at h
  split at h
  · simp at h
  · exact findGo_sound t.dist val maxDist _ _ w dd h

/-- Witness for C2 at a concrete tree and query. -/
theorem bk_find_sound_witness :
    ((1 : Int) = (fun a b : Int => a - b) 4 3 ∧ (1 : Int) ≤ 2) ∧
      (∀ (d : Int → Int → Int) (q : Int) (m : Int), (BkTree.new d).find q m = []) :=
  bk_find_sound (build (fun a b : Int => a - b) [4]) 3 2 4 1 (by decide)

/-! ### Claim C5: negative `max_dist` yields an empty result -/

theorem findGo_neg {T} (d : T → T → Int) (val : T) (m : Int)
    (hd : ∀ a b, 0 ≤ d a b) (hm : m < 0) :
    ∀ (fuel : Nat) (q : List (Node T)), findGo d val m fuel q = [] := by
  intro fuel
  induction fuel with
  | zero => intro q; simp [findGo]
  | succ fuel ih =>
    intro q
    match q with
    | [] => simp [findGo]
    | n :: rest =>
      rw [findGo]
      have h1 : ¬ d n.word val ≤ m := by have := hd n.word val; omega
      have h2 : n.children.filter
          (fun p => ((p.1 - d n.word val).natAbs : Int) ≤ m) = [] := by
        apply List.filter_eq_nil_iff.2
        intro p _
        simp only [decide_eq_true_eq]
        omega
      simp only [h1, if_false, h2, List.map_nil, List.append_nil, List.nil_append]
      exact ih rest

/-- Claim C5: with a metric returning only non-negative distances, `find`
with a negative `max_dist` returns the empty collection on every tree. -/
theorem bk_find_neg_empty {T} (t : BkTree T) (val : T) (maxDist : Int)
    (hd : ∀ a b, 0 ≤ t.dist a b) (hm : maxDist < 0) :
    t.find val maxDist = [] := by
  unfold BkTree.find
  split
  · rfl
  · exact findGo_neg t.dist val maxDist hd hm _ _

/-- Witness for C5 at a concrete tree and query. -/
theorem bk_find_neg_empty_witness :
    (build HammingDistance.distance [0, 4, 5, 14, 15]).find 13 (-1) = [] :=
  bk_find_neg_empty _ 13 (-1)
    (fun a b => by rw [build_dist]; unfold HammingDistance.distance; omega) (by decide)

/-! ### Claim C10: result length is bounded by the number of stored items -/

theorem findGo_length {T} (d : T → T → Int) (val : T) (m : Int) :
    ∀ (fuel : Nat) (q : List (Node T)),
      (findGo d val m fuel q).length ≤ queueSize q := by
  intro fuel
  induction fuel with
  | zero => intro q; simp [findGo]
  | succ fuel ih =>
    intro q
    match q with
    | [] => simp [findGo]
    | n :: rest =>
      rw [findGo]
      have hnext := ih (rest ++ (n.children.filter
        (fun p => ((p.1 - d n.word val).natAbs : Int) ≤ m)).map Prod.snd)
      rw [queueSize_append] at hnext
      have hfilter := queueSize_filter_children n.children
        (fun p => decide (((p.1 - d n.word val).natAbs : Int) ≤ m))
      have hsplit : (if d n.word val ≤ m then [(n.word, d n.word val)] else []).length ≤ 1 := by
        split <;> simp
      rw [List.length_append]
      cases n with
      | mk w cs =>
        simp only [Node.children_mk] at hnext hfilter ⊢
        simp only [size_mk, queueSize_cons]
        omega

/-- Claim C10: each node enters the work queue at most once, so the result of
`find` never holds more pairs than the tree holds items. -/
theorem bk_find_length_le {T} (t : BkTree T) (val : T) (maxDist : Int) :
    (t.find val maxDist).length ≤ t.elems.length := by
  unfold BkTree.find BkTree.elems
  split
  · simp
  · rename_i r _
    have := findGo_length t.dist val maxDist r.size [r]
    simpa [size_elems r] using this

/-! ### Claim C9: `iter` and `into_iter` yield the same sequence -/

theorem iterGo_eq_intoIterGo {T} :
    ∀ (fuel : Nat) (q : List (Node T)), iterGo fuel q = intoIterGo fuel q := by
  intro fuel
  induction fuel with
  | zero => intro q; simp [iterGo, intoIterGo]
  | succ fuel ih =>
    intro q
    match q with
    | [] => simp [iterGo, intoIterGo]
    | n :: rest => rw [iterGo, intoIterGo, ih]

theorem iterList_eq_intoIterList {T} (t : BkTree T) : t.iterList = t.intoIterList := by
  unfold BkTree.iterList BkTree.intoIterList
  split
  · rfl
  · exact iterGo_eq_intoIterGo _ _

/-- Claim C9: for every tree, the by-reference iterator `iter()` and the
consuming iterator `into_iter()` yield exactly the same sequence of items,
both being the same deterministic stack traversal. -/
theorem bk_iter_eq_intoIter {T} (t : BkTree T) : t.iterList = t.intoIterList :=
  iterList_eq_intoIterList t

/-! ### Claim C6: Levenshtein known values -/

/-- Claim C6: the four reference values of `LevenshteinDistance::distance`. -/
theorem levenshtein_known_values :
    LevenshteinDistance.distance "book" "boo" = 1 ∧
      LevenshteinDistance.distance "book" "cook" = 1 ∧
      LevenshteinDistance.distance "" "abc" = 3 ∧
      LevenshteinDistance.distance "abc" "abc" = 0 := by
  refine ⟨?_, ?_, ?_, ?_⟩ <;> decide

/-! ### Claim C4: child-edge uniqueness invariant -/

theorem insertChildren_map_fst {T} (d : T → T → Int) (val : T) (k : Int)
    (cs : List (Int × Node T)) :
    (insertChildren d val k cs).map Prod.fst =
      if k ∈ cs.map Prod.fst then cs.map Prod.fst else cs.map Prod.fst ++ [k] := by
  induction cs with
  | nil => simp [insertChildren]
  | cons hd tl ih =>
    match hd with
    | (arc, c) =>
      by_cases h : arc = k
      · subst h
        simp [insertChildren]
      · rw [insertChildren]
        simp only [if_neg h, List.map_cons, ih]
        have : (k ∈ arc :: tl.map Prod.fst) ↔ k ∈ tl.map Prod.fst := by
          simp [List.mem_cons]
          intro hk
          exact absurd hk.symm h
        by_cases hmem : k ∈ tl.map Prod.fst
        · simp [hmem, this]
        · simp [hmem, this]

theorem insertChildren_mem {T} (d : T → T → Int) (val : T) (k : Int) :
    ∀ (cs : List (Int × Node T)) (p : Int × Node T), p ∈ insertChildren d val k cs →
      p ∈ cs ∨ p = (k, Node.mk val []) ∨ ∃ c, (k, c) ∈ cs ∧ p = (k, insertNode d val c) := by
  intro cs
  induction cs with
  | nil =>
    intro p hp
    simp [insertChildren] at hp
    exact Or.inr (Or.inl hp)
  | cons hd tl ih =>
    intro p hp
    match hd with
    | (arc, c) =>
      rw [insertChildren] at hp
      split at hp
      · rename_i harc
        subst harc
        rcases List.mem_cons.1 hp with rfl | hmem
        · exact Or.inr (Or.inr ⟨c, by simp⟩)
        · exact Or.inl (List.mem_cons_of_mem _ hmem)
      · rcases List.mem_cons.1 hp with rfl | hmem
        · exact Or.inl (List.mem_cons_self _ _)
        · rcases ih p hmem with h1 | h2 | ⟨c2, hc2, rfl⟩
          · exact Or.inl (List.mem_cons_of_mem _ h1)
          · exact Or.inr (Or.inl h2)
          · exact Or.inr (Or.inr ⟨c2, List.mem_cons_of_mem _ hc2, rfl⟩)

theorem insertNode_WF {T} (d : T → T → Int) (val : T) :
    ∀ n : Node T, NodeWF n → NodeWF (insertNode d val n) := by
  intro n
  induction n using Node.ind with
  | h w cs ih =>
    intro hwf
    cases hwf with
    | mk _ _ hnodup harcs hrec =>
      unfold insertNode
      split
      · exact NodeWF.mk _ _ hnodup harcs hrec
      · rename_i hk
        refine NodeWF.mk _ _ ?_ ?_ ?_
        · rw [insertChildren_map_fst]
          split
          · exact hnodup
          · rename_i hnotmem
            simp [List.nodup_append, hnodup, hnotmem]
        · intro p hp
          rcases insertChildren_mem d val _ cs p hp with h1 | rfl | ⟨c, hc, rfl⟩
          · exact harcs p h1
          · exact hk
          · exact hk
        · intro p hp
          rcases insertChildren_mem d val _ cs p hp with h1 | rfl | ⟨c, hc, rfl⟩
          · exact hrec p h1
          · exact NodeWF.mk _ _ (by simp) (by simp) (by simp)
          · exact ih (d w val, c) (by
              have : ((d w val, c) : Int × Node T).1 = d w val := rfl
              exact hc) (hrec _ hc)

theorem insert_WF {T} (t : BkTree T) (val : T)
    (h : ∀ r, t.root = some r → NodeWF r) :
    ∀ r, (t.insert val).root = some r → NodeWF r := by
  unfold BkTree.insert
  cases htr : t.root with
  | none =>
    intro r hr
    simp at hr
    subst hr
    exact NodeWF.mk _ _ (by simp) (by simp) (by simp)
  | some root =>
    intro r hr
    simp at hr
    subst hr
    exact insertNode_WF t.dist val root (h root htr)

theorem build_WF {T} (d : T → T → Int) (ws : List T) :
    ∀ r, (build d ws).root = some r → NodeWF r := by
  suffices h : ∀ (t : BkTree T), (∀ r, t.root = some r → NodeWF r) →
      ∀ r, (t.insertAll ws).root = some r → NodeWF r by
    exact h (BkTree.new d) (by intro r hr; cases hr)
  induction ws with
  | nil => intro t ht; exact ht
  | cons w ws ih =>
    intro t ht
    exact ih (t.insert w) (insert_WF t w ht)

/-- Claim C4: every tree reachable by insertions keeps at most one child per
distinct edge label (together with the label being nonzero), and one
insertion step descends into the first existing child with label `k` when one
exists — leaving the label list unchanged — and appends a new child labelled
`k` exactly when no such child exists. -/
theorem bk_child_unique {T} (d : T → T → Int) (ws : List T) (val : T) (k : Int)
    (cs : List (Int × Node T)) (c : Node T) (rest : List (Int × Node T)) :
    (∀ r, (build d ws).root = some r → NodeWF r) ∧
      (insertChildren d val k ((k, c) :: rest) = (k, insertNode d val c) :: rest) ∧
      (k ∈ cs.map Prod.fst →
        (insertChildren d val k cs).map Prod.fst = cs.map Prod.fst) ∧
      (k ∉ cs.map Prod.fst →
        insertChildren d val k cs = cs ++ [(k, Node.mk val [])]) := by
  refine ⟨build_WF d ws, by simp [insertChildren], ?_, ?_⟩
  · intro hmem
    rw [insertChildren_map_fst, if_pos hmem]
  · intro hnot
    induction cs with
    | nil => simp [insertChildren]
    | cons hd tl ih =>
      match hd with
      | (arc, c2) =>
        rw [insertChildren]
        have harc : ¬ arc = k := by
          intro h
          exact hnot (by simp [h])
        rw [if_neg harc]
        have : k ∉ tl.map Prod.fst := by
          intro h
          exact hnot (by simp [h])
        rw [ih this]
        simp

/-- Witness for C4 at concrete inputs. -/
theorem bk_child_unique_witness :
    ((insertChildren (fun a b : Int => a - b) 7 2 [] = [(2, Node.mk 7 [])]) ∧
      (insertChildren (fun a b : Int => a - b) 7 2 [(2, Node.mk 5 []), (3, Node.mk 6 [])]).map
        Prod.fst = [2, 3]) := by
  have h1 := bk_child_unique (fun a b : Int => a - b) [] 7 2 [] (Node.mk 5 []) []
  have h2 := bk_child_unique (fun a b : Int => a - b) [] 7 2
    [(2, Node.mk 5 []), (3, Node.mk 6 [])] (Node.mk 5 []) []
  exact ⟨h1.2.2.2 (by decide), h2.2.2.1 (by decide)⟩

/-! ### Claim C8: traversal completeness -/

@[simp] theorem elemsQ_nil {T} : elemsQ (T := T) [] = [] := rfl

@[simp] theorem elemsQ_cons {T} (n : Node T) (q) :
    elemsQ (n :: q) = n.elems ++ elemsQ q := rfl

theorem elemsQ_append {T} (q r : List (Node T)) :
    elemsQ (q ++ r) = elemsQ q ++ elemsQ r := by
  induction q with
  | nil => simp
  | cons n q ih => simp [ih]

theorem elemsQ_map_snd {T} (cs : List (Int × Node T)) :
    elemsQ (cs.map Prod.snd) = elemsL cs := by
  induction cs with
  | nil => simp
  | cons hd tl ih => simp [ih]

theorem elemsQ_reverse {T} (q : List (Node T)) : (elemsQ q.reverse).Perm (elemsQ q) := by
  induction q with
  | nil => simp
  | cons n q ih =>
    simp only [List.reverse_cons, elemsQ_append, elemsQ_cons, elemsQ_nil, List.append_nil]
    exact List.perm_append_comm.trans (ih.append_left n.elems)

theorem queueSize_reverse {T} (q : List (Node T)) : queueSize q.reverse = queueSize q := by
  induction q with
  | nil => simp
  | cons n q ih =>
    simp only [List.reverse_cons, queueSize_append, queueSize_cons]
    simp [ih]
    omega

theorem queueSize_map_snd {T} (cs : List (Int × Node T)) :
    queueSize (cs.map Prod.snd) = sizeL cs := by
  induction cs with
  | nil => simp
  | cons hd tl ih => simp [ih]

theorem intoIterGo_perm {T} :
    ∀ (fuel : Nat) (q : List (Node T)), queueSize q ≤ fuel →
      (intoIterGo fuel q).Perm (elemsQ q) := by
  intro fuel
  induction fuel with
  | zero =>
    intro q hq
    match q with
    | [] => simp [intoIterGo]
    | n :: rest =>
      exfalso
      cases n with
      | mk w cs => simp at hq
  | succ fuel ih =>
    intro q hq
    match q with
    | [] => simp [intoIterGo]
    | n :: rest =>
      rw [intoIterGo]
      cases n with
      | mk w cs =>
        simp only [Node.children_mk, Node.word_mk, elemsQ_cons, elems_mk, List.cons_append]
        refine List.Perm.cons w ?_
        have hsize : queueSize ((cs.map Prod.snd).reverse ++ rest) ≤ fuel := by
          rw [queueSize_append, queueSize_reverse, queueSize_map_snd]
          simp at hq
          omega
        have hperm := ih _ hsize
        refine hperm.trans ?_
        rw [elemsQ_append]
        exact ((elemsQ_reverse _).trans (by rw [elemsQ_map_snd])).append_right _

theorem insertChildren_elems_perm {T} (d : T → T → Int) (val : T) (k : Int)
    (cs : List (Int × Node T))
    (ih : ∀ p ∈ cs, (insertNode d val p.2).elems.Perm
      (if discardsNode d val p.2 then p.2.elems else val :: p.2.elems)) :
    (elemsL (insertChildren d val k cs)).Perm
      (if discardsChildren d val k cs then elemsL cs else val :: elemsL cs) := by
  induction cs with
  | nil =>
    simp [insertChildren, discardsChildren]
  | cons hd tl ihcs =>
    match hd with
    | (arc, c) =>
      rw [insertChildren, discardsChildren]
      by_cases harc : arc = k
      · rw [if_pos harc, if_pos harc]
        simp only [elemsL_cons]
        have hc := ih (arc, c) (by simp)
        by_cases hdisc : discardsNode d val c
        · rw [if_pos hdisc]
          rw [if_pos hdisc] at hc
          exact hc.append_right _
        · rw [if_neg hdisc]
          rw [if_neg hdisc] at hc
          exact (hc.append_right _).trans (by simp)
      · rw [if_neg harc, if_neg harc]
        simp only [elemsL_cons]
        have htl := ihcs (fun p hp => ih p (by simp [hp]))
        by_cases hdisc : discardsChildren d val k tl
        · rw [if_pos hdisc]
          rw [if_pos hdisc] at htl
          exact htl.append_left _
        · rw [if_neg hdisc]
          rw [if_neg hdisc] at htl
          exact (htl.append_left _).trans List.perm_middle

theorem insertNode_elems_perm {T} (d : T → T → Int) (val : T) :
    ∀ n : Node T, (insertNode d val n).elems.Perm
      (if discardsNode d val n then n.elems else val :: n.elems) := by
  intro n
  induction n using Node.ind with
  | h w cs ih =>
    rw [insertNode, discardsNode]
    by_cases hk : d w val = 0
    · rw [if_pos hk, if_pos hk]
      simp
    · rw [if_neg hk, if_neg hk]
      simp only [elems_mk]
      have h := insertChildren_elems_perm d val (d w val) cs ih
      by_cases hdisc : discardsChildren d val (d w val) cs
      · rw [if_pos hdisc]
        rw [if_pos hdisc] at h
        exact h.cons w
      · rw [if_neg hdisc]
        rw [if_neg hdisc] at h
        exact (h.cons w).trans (List.Perm.swap val w _)

theorem insert_elems_perm {T} (t : BkTree T) (val : T) :
    (t.insert val).elems.Perm
      (if t.discards val then t.elems else val :: t.elems) := by
  unfold BkTree.insert BkTree.discards BkTree.elems
  cases htr : t.root with
  | none => simp
  | some r =>
    simpa using insertNode_elems_perm t.dist val r

theorem insertAll_elems_perm {T} :
    ∀ (ws : List T) (t : BkTree T),
      (t.insertAll ws).elems.Perm (t.elems ++ storedList t ws) := by
  intro ws
  induction ws with
  | nil => intro t; simp [BkTree.insertAll, storedList]
  | cons w ws ih =>
    intro t
    have hstep : (t.insertAll (w :: ws)) = (t.insert w).insertAll ws := rfl
    rw [hstep, storedList]
    have h := ih (t.insert w)
    have hins := insert_elems_perm t w
    by_cases hdisc : t.discards w
    · rw [if_pos hdisc] at hins ⊢
      exact h.trans (hins.append_right _)
    · rw [if_neg hdisc] at hins ⊢
      refine h.trans ((hins.append_right _).trans ?_)
      exact List.perm_middle.symm

/-- Claim C8: exhausting `into_iter()` (and likewise `iter()`) on a tree built
by a sequence of insertions yields, as a multiset, exactly the items the tree
stores — the inserted items after de-duplication by distance-0 collisions —
with no item yielded twice and none omitted. -/
theorem bk_iter_complete {T} (d : T → T → Int) (ws : List T) :
    ((build d ws).intoIterList).Perm ((build d ws).elems) ∧
      ((build d ws).iterList).Perm ((build d ws).elems) ∧
      ((build d ws).elems).Perm (storedList (BkTree.new d) ws) := by
  have hiter : ∀ t : BkTree T, t.intoIterList.Perm t.elems := by
    intro t
    unfold BkTree.intoIterList BkTree.elems
    cases htr : t.root with
    | none => simp
    | some r =>
      have := intoIterGo_perm r.size [r] (by simp)
      simpa using this
  refine ⟨hiter _, ?_, ?_⟩
  · rw [iterList_eq_intoIterList]
    exact hiter _
  · have := insertAll_elems_perm ws (BkTree.new (T := T) d)
    simpa [BkTree.new, BkTree.elems] using this

/-! ### Claim C3: duplicate insertion -/

theorem insertChildren_eq_of_discards {T} (d : T → T → Int) (val : T) (k : Int)
    (cs : List (Int × Node T))
    (ih : ∀ p ∈ cs, discardsNode d val p.2 = true → insertNode d val p.2 = p.2)
    (h : discardsChildren d val k cs = true) : insertChildren d val k cs = cs := by
  induction cs with
  | nil => simp [discardsChildren] at h
  | cons hd tl ihcs =>
    match hd with
    | (arc, c) =>
      rw [discardsChildren] at h
      rw [insertChildren]
      by_cases harc : arc = k
      · rw [if_pos harc] at h ⊢
        rw [ih (arc, c) (by simp) h]
      · rw [if_neg harc] at h ⊢
        rw [ihcs (fun p hp hdp => ih p (by simp [hp]) hdp) h]

theorem insertNode_eq_of_discards {T} (d : T → T → Int) (val : T) :
    ∀ n : Node T, discardsNode d val n = true → insertNode d val n = n := by
  intro n
  induction n using Node.ind with
  | h w cs ih =>
    intro hdisc
    rw [discardsNode] at hdisc
    rw [insertNode]
    by_cases hk : d w val = 0
    · rw [if_pos hk]
    · rw [if_neg hk] at hdisc ⊢
      rw [insertChildren_eq_of_discards d val _ cs ih hdisc]

theorem insert_eq_of_discards {T} (t : BkTree T) (val : T)
    (h : t.discards val = true) : t.insert val = t := by
  unfold BkTree.discards at h
  unfold BkTree.insert
  cases htr : t.root with
  | none => rw [htr] at h; simp at h
  | some r =>
    rw [htr] at h
    simp only
    rw [insertNode_eq_of_discards t.dist val r h]
    cases t
    simp_all

theorem insertChildren_idem {T} (d : T → T → Int) (val : T) (hval : d val val = 0) (k : Int)
    (cs : List (Int × Node T))
    (ih : ∀ p ∈ cs, insertNode d val (insertNode d val p.2) = insertNode d val p.2) :
    insertChildren d val k (insertChildren d val k cs) = insertChildren d val k cs := by
  induction cs with
  | nil =>
    rw [insertChildren, insertChildren, if_pos rfl, insertNode, hval, if_pos rfl]
  | cons hd tl ihcs =>
    match hd with
    | (arc, c) =>
      rw [insertChildren]
      by_cases harc : arc = k
      · rw [if_pos harc, insertChildren, if_pos harc, ih (arc, c) (by simp)]
      · rw [if_neg harc, insertChildren, if_neg harc,
          ihcs (fun p hp => ih p (by simp [hp]))]

theorem insertNode_idem {T} (d : T → T → Int) (val : T) (hval : d val val = 0) :
    ∀ n : Node T, insertNode d val (insertNode d val n) = insertNode d val n := by
  intro n
  induction n using Node.ind with
  | h w cs ih =>
    by_cases hk : d w val = 0
    · rw [insertNode, if_pos hk, insertNode, if_pos hk]
    · rw [insertNode, if_neg hk, insertNode]
      rw [if_neg hk, insertChildren_idem d val hval _ cs ih]

theorem insert_idem {T} (t : BkTree T) (val : T) (hval : t.dist val val = 0) :
    (t.insert val).insert val = t.insert val := by
  unfold BkTree.insert
  cases htr : t.root with
  | none =>
    simp only
    rw [insertNode, hval, if_pos rfl]
  | some r =>
    simp only
    rw [insertNode_idem t.dist val hval r]

theorem discardsChildren_insertChildren {T} (d : T → T → Int) (val : T)
    (hval : d val val = 0) (k : Int) (cs : List (Int × Node T))
    (ih : ∀ p ∈ cs, discardsNode d val (insertNode d val p.2) = true) :
    discardsChildren d val k (insertChildren d val k cs) = true := by
  induction cs with
  | nil =>
    rw [insertChildren, discardsChildren, if_pos rfl, discardsNode, hval, if_pos rfl]
  | cons hd tl ihcs =>
    match hd with
    | (arc, c) =>
      rw [insertChildren]
      by_cases harc : arc = k
      · rw [if_pos harc, discardsChildren, if_pos harc]
        exact ih (arc, c) (by simp)
      · rw [if_neg harc, discardsChildren, if_neg harc]
        exact ihcs (fun p hp => ih p (by simp [hp]))

theorem discardsNode_insertNode {T} (d : T → T → Int) (val : T) (hval : d val val = 0) :
    ∀ n : Node T, discardsNode d val (insertNode d val n) = true := by
  intro n
  induction n using Node.ind with
  | h w cs ih =>
    by_cases hk : d w val = 0
    · rw [insertNode, if_pos hk, discardsNode, if_pos hk]
    · rw [insertNode, if_neg hk, discardsNode]
      rw [if_neg hk]
      exact discardsChildren_insertChildren d val hval _ cs ih

theorem discards_insert {T} (t : BkTree T) (val : T) (hval : t.dist val val = 0) :
    (t.insert val).discards val = true := by
  unfold BkTree.insert BkTree.discards
  cases htr : t.root with
  | none =>
    simp only
    rw [discardsNode, hval, if_pos rfl]
  | some r =>
    simp only
    exact discardsNode_insertNode t.dist val hval r

theorem findGo_nil {T} (d : T → T → Int) (val : T) (m : Int) (fuel : Nat) :
    findGo d val m fuel [] = [] := by
  cases fuel <;> simp [findGo]

/-- With `max_dist = 0`, a non-negative metric and a well-formed tree, the
`find` loop follows the single path the insertion walk would take, and finds
exactly one item when and only when the walk would hit a distance-0 node. -/
theorem findGo_zero_single {T} (d : T → T → Int) (val : T)
    (hd : ∀ a b, 0 ≤ d a b) :
    ∀ n : Node T, NodeWF n → ∀ fuel, n.size ≤ fuel →
      (findGo d val 0 fuel [n]).length = (if discardsNode d val n then 1 else 0) := by
  intro n
  induction n using Node.ind with
  | h w cs ih =>
    intro hwf fuel hfuel
    cases hwf with
    | mk _ _ hnodup harcs hrec =>
      match fuel with
      | 0 => simp at hfuel
      | fuel + 1 =>
        rw [findGo, discardsNode]
        simp only [Node.word_mk, Node.children_mk, List.nil_append]
        by_cases hk : d w val = 0
        · rw [if_pos hk]
          have hemit : d w val ≤ 0 := le_of_eq hk
          rw [if_pos hemit]
          have hfilter : cs.filter (fun p => ((p.1 - d w val).natAbs : Int) ≤ 0) = [] := by
            apply List.filter_eq_nil_iff.2
            intro p hp
            have h1 := harcs p hp
            simp only [decide_eq_true_eq]
            rw [hk]
            omega
          rw [hfilter]
          simp [findGo_nil]
        · rw [if_neg hk]
          have hkpos : 0 < d w val := by have := hd w val; omega
          have hnoemit : ¬ d w val ≤ 0 := by omega
          rw [if_neg hnoemit]
          have hfilter : cs.filter (fun p => ((p.1 - d w val).natAbs : Int) ≤ 0) =
              cs.filter (fun p => p.1 = d w val) := by
            apply List.filter_congr
            intro p hp
            simp only [decide_eq_true_eq, decide_eq_decide]
            omega
          rw [hfilter]
          simp only [List.nil_append, List.length_nil]
          have hsub : ∀ l : List (Int × Node T), l ⊆ cs → (l.map Prod.fst).Nodup →
              (∀ fuel2, sizeL l ≤ fuel2 →
                (findGo d val 0 fuel2 ((l.filter (fun p => p.1 = d w val)).map Prod.snd)).length =
                  (if discardsChildren d val (d w val) l then 1 else 0)) := by
            intro l
            induction l with
            | nil =>
              intro _ _ fuel2 _
              simp [discardsChildren, findGo_nil]
            | cons hd2 tl ihl =>
              intro hsubset hnodup2 fuel2 hfuel2
              match hd2 with
              | (arc, c) =>
                rw [discardsChildren]
                by_cases harc : arc = d w val
                · rw [if_pos harc]
                  have htlf : tl.filter (fun p => p.1 = d w val) = [] := by
                    apply List.filter_eq_nil_iff.2
                    intro p hp
                    simp only [decide_eq_true_eq]
                    have : arc ∉ tl.map Prod.fst := by
                      simp only [List.map_cons] at hnodup2
                      exact (List.nodup_cons.1 hnodup2).1
                    intro hpk
                    exact this (by
                      rw [harc, ← hpk]
                      exact List.mem_map_of_mem Prod.fst hp)
                  rw [List.filter_cons, if_pos (by simp [harc]), htlf]
                  simp only [List.map_cons, List.map_nil]
                  have hc : NodeWF c := hrec (arc, c) (hsubset (by simp))
                  have hcs : c.size ≤ fuel2 := by
                    have := sizeL_pos_elem ((arc, c) :: tl) (arc, c) (by simp)
                    simp only [sizeL_cons] at hfuel2
                    have : Node.size c ≤ fuel2 := by
                      have h0 : 0 ≤ sizeL tl := Nat.zero_le _
                      omega
                    exact this
                  exact ih (arc, c) (hsubset (by simp)) hc fuel2 hcs
                · rw [if_neg harc]
                  rw [List.filter_cons, if_neg (by simp [harc])]
                  refine ihl (fun p hp => hsubset (by simp [hp])) ?_ fuel2 ?_
                  · simp only [List.map_cons] at hnodup2
                    exact (List.nodup_cons.1 hnodup2).2
                  · simp only [sizeL_cons] at hfuel2
                    have h0 : 0 ≤ Node.size c := Nat.zero_le _
                    omega
          have := hsub cs (by intro x hx; exact hx) hnodup fuel (by simp at hfuel; omega)
          exact this

/-- Part of the amended C3 at tree level: the one-match property for a
doubly-inserted item on a built tree. -/
theorem bk_double_insert_find {T} (d : T → T → Int) (ws : List T) (val : T)
    (hd : ∀ a b, 0 ≤ d a b) (hval : d val val = 0) :
    ((((build d ws).insert val).insert val).find val 0).length = 1 := by
  have hdist : (build d ws).dist = d := build_dist d ws
  rw [insert_idem _ val (by rw [hdist]; exact hval)]
  have hdisc : ((build d ws).insert val).discards val = true :=
    discards_insert _ val (by rw [hdist]; exact hval)
  have hwf : ∀ r, (((build d ws).insert val)).root = some r → NodeWF r :=
    insert_WF _ val (build_WF d ws)
  unfold BkTree.find
  cases htr : ((build d ws).insert val).root with
  | none =>
    unfold BkTree.discards at hdisc
    rw [htr] at hdisc
    simp at hdisc
  | some r =>
    have hr := hwf r htr
    have hdr : discardsNode d val r = true := by
      unfold BkTree.discards at hdisc
      rw [htr] at hdisc
      rw [insert_dist, hdist] at hdisc
      exact hdisc
    have := findGo_zero_single d val hd r hr r.size (le_refl _)
    rw [hdr, if_pos rfl] at this
    rw [insert_dist, hdist]
    exact this

/-- Claim C3 (amended): inserting an item whose insertion walk hits a
distance-0 node leaves the tree completely unchanged, for every tree and
metric; and when the metric satisfies `dist(val, val) = 0`, inserting the
same item twice equals inserting it once, and on a tree built by insertions
with a non-negative metric, `find(item, 0)` afterwards returns exactly one
match. -/
theorem bk_dup_insert_noop {T} (d : T → T → Int) (t : BkTree T) (val : T) (ws : List T) :
    (t.discards val = true → t.insert val = t) ∧
      (t.dist val val = 0 → (t.insert val).insert val = t.insert val) ∧
      ((∀ a b, 0 ≤ d a b) → d val val = 0 →
        ((((build d ws).insert val).insert val).find val 0).length = 1) :=
  ⟨insert_eq_of_discards t val, insert_idem t val,
    fun hd hval => bk_double_insert_find d ws val hd hval⟩

/-- Witness for C3 at concrete inputs. -/
theorem bk_dup_insert_noop_witness :
    ((build (fun a b : Int => ((a - b).natAbs : Int)) [3]).insert 3 =
        build (fun a b : Int => ((a - b).natAbs : Int)) [3]) ∧
      (((((build (fun a b : Int => ((a - b).natAbs : Int)) [5, 7]).insert 6).insert 6).find
          6 0).length = 1) := by
  have h1 := bk_dup_insert_noop (fun a b : Int => ((a - b).natAbs : Int))
    (build (fun a b : Int => ((a - b).natAbs : Int)) [3]) 3 [5, 7]
  exact ⟨h1.1 (by decide), h1.2.2 (fun a b => by omega) (by decide)⟩

/-- Counterexample to C3 as stated: with the (symmetric, deterministic, but
identity-violating) metric that is constantly `5`, inserting the same item
twice changes the tree — the item is stored twice — and `find(item, 0)`
afterwards returns no match at all rather than exactly one. -/
theorem bk_dup_insert_cex :
    (((BkTree.new (fun _ _ : Nat => (5 : Int))).insert 0).insert 0).elems = [0, 0] ∧
      (((BkTree.new (fun _ _ : Nat => (5 : Int))).insert 0).insert 0).find 0 0 = [] ∧
      ¬ ((((BkTree.new (fun _ _ : Nat => (5 : Int))).insert 0).insert 0).find 0 0).length = 1 := by
  refine ⟨?_, ?_, ?_⟩ <;> decide

/-! ### Claim C1: completeness of `find` -/

theorem elemsL_mem {T} (cs : List (Int × Node T)) (y : T) (h : y ∈ elemsL cs) :
    ∃ p ∈ cs, y ∈ p.2.elems := by
  induction cs with
  | nil => simp at h
  | cons hd tl ih =>
    simp only [elemsL_cons, List.mem_append] at h
    rcases h with h1 | h2
    · exact ⟨hd, by simp, h1⟩
    · obtain ⟨p, hp, hy⟩ := ih h2
      exact ⟨p, by simp [hp], hy⟩

theorem elemsL_mem_of {T} (cs : List (Int × Node T)) (p : Int × Node T) (y : T)
    (hp : p ∈ cs) (hy : y ∈ p.2.elems) : y ∈ elemsL cs := by
  induction cs with
  | nil => cases hp
  | cons hd tl ih =>
    simp only [List.mem_cons] at hp
    simp only [elemsL_cons, List.mem_append]
    rcases hp with rfl | hmem
    · exact Or.inl hy
    · exact Or.inr (ih hmem)

theorem mem_elemsQ {T} (q : List (Node T)) (n : Node T) (y : T)
    (hn : n ∈ q) (hy : y ∈ n.elems) : y ∈ elemsQ q := by
  induction q with
  | nil => cases hn
  | cons hd tl ih =>
    simp only [List.mem_cons] at hn
    simp only [elemsQ_cons, List.mem_append]
    rcases hn with rfl | hmem
    · exact Or.inl hy
    · exact Or.inr (ih hmem)

theorem insertNode_elems_sub {T} (d : T → T → Int) (val : T) (n : Node T) (y : T)
    (h : y ∈ (insertNode d val n).elems) : y ∈ n.elems ∨ y = val := by
  have hperm := insertNode_elems_perm d val n
  have := hperm.mem_iff.1 h
  by_cases hdisc : discardsNode d val n
  · rw [if_pos hdisc] at this
    exact Or.inl this
  · rw [if_neg hdisc] at this
    rcases List.mem_cons.1 this with rfl | hmem
    · exact Or.inr rfl
    · exact Or.inl hmem

theorem insertNode_elems_mono {T} (d : T → T → Int) (val : T) (n : Node T) (y : T)
    (h : y ∈ n.elems) : y ∈ (insertNode d val n).elems := by
  have hperm := insertNode_elems_perm d val n
  apply hperm.mem_iff.2
  by_cases hdisc : discardsNode d val n
  · rw [if_pos hdisc]; exact h
  · rw [if_neg hdisc]; exact List.mem_cons_of_mem _ h

theorem discardsNode_exists_zero {T} (d : T → T → Int) (val : T) :
    ∀ n : Node T, discardsNode d val n = true → ∃ w ∈ n.elems, d w val = 0 := by
  intro n
  induction n using Node.ind with
  | h w cs ih =>
    intro hdisc
    rw [discardsNode] at hdisc
    by_cases hk : d w val = 0
    · exact ⟨w, by simp, hk⟩
    · rw [if_neg hk] at hdisc
      have : ∀ l : List (Int × Node T), l ⊆ cs →
          discardsChildren d val (d w val) l = true → ∃ y ∈ elemsL l, d y val = 0 := by
        intro l
        induction l with
        | nil => intro _ h; simp [discardsChildren] at h
        | cons hd tl ihl =>
          intro hsub h
          match hd with
          | (arc, c) =>
            rw [discardsChildren] at h
            by_cases harc : arc = d w val
            · rw [if_pos harc] at h
              obtain ⟨y, hy, hy0⟩ := ih (arc, c) (hsub (by simp)) h
              exact ⟨y, elemsL_mem_of _ (arc, c) y (by simp) hy, hy0⟩
            · rw [if_neg harc] at h
              obtain ⟨y, hy, hy0⟩ := ihl (fun p hp => hsub (by simp [hp])) h
              refine ⟨y, ?_, hy0⟩
              simp only [elemsL_cons, List.mem_append]
              exact Or.inr hy
      obtain ⟨y, hy, hy0⟩ := this cs (by intro p hp; exact hp) hdisc
      exact ⟨y, by simp [hy], hy0⟩

theorem insertNode_mem_self {T} (d : T → T → Int) (val : T)
    (hco : ∀ a b, d a b = 0 → a = b) (n : Node T) :
    val ∈ (insertNode d val n).elems := by
  by_cases hdisc : discardsNode d val n
  · rw [insertNode_eq_of_discards d val n hdisc]
    obtain ⟨w, hw, hw0⟩ := discardsNode_exists_zero d val n hdisc
    have := hco w val hw0
    subst this
    exact hw
  · have hperm := insertNode_elems_perm d val n
    apply hperm.mem_iff.2
    rw [if_neg hdisc]
    exact List.mem_cons_self _ _

theorem insert_mem_self {T} (t : BkTree T) (val : T)
    (hco : ∀ a b, t.dist a b = 0 → a = b) : val ∈ (t.insert val).elems := by
  unfold BkTree.insert BkTree.elems
  cases htr : t.root with
  | none => simp
  | some r =>
    simpa using insertNode_mem_self t.dist val hco r

theorem insert_elems_mono {T} (t : BkTree T) (val y : T)
    (h : y ∈ t.elems) : y ∈ (t.insert val).elems := by
  unfold BkTree.insert BkTree.elems
  unfold BkTree.elems at h
  cases htr : t.root with
  | none => rw [htr] at h; simp at h
  | some r =>
    rw [htr] at h
    simpa using insertNode_elems_mono t.dist val r y h

theorem mem_build {T} (d : T → T → Int) (hco : ∀ a b, d a b = 0 → a = b)
    (ws : List T) (x : T) (hx : x ∈ ws) : x ∈ (build d ws).elems := by
  suffices h : ∀ (ws2 : List T) (t : BkTree T), t.dist = d →
      (x ∈ t.elems ∨ x ∈ ws2) → x ∈ (t.insertAll ws2).elems by
    exact h ws (BkTree.new d) rfl (Or.inr hx)
  intro ws2
  induction ws2 with
  | nil =>
    intro t _ h
    rcases h with h | h
    · exact h
    · cases h
  | cons w ws2 ih =>
    intro t hdist h
    have hstep : t.insertAll (w :: ws2) = (t.insert w).insertAll ws2 := rfl
    rw [hstep]
    refine ih (t.insert w) (by rw [insert_dist, hdist]) ?_
    rcases h with h | h
    · exact Or.inl (insert_elems_mono t w x h)
    · rcases List.mem_cons.1 h with rfl | hmem
      · exact Or.inl (insert_mem_self t x (by rw [hdist]; exact hco))
      · exact Or.inr hmem

theorem insertChildren_BkInv {T} (d : T → T → Int) (val : T) (w : T)
    (cs : List (Int × Node T))
    (hdist : ∀ p ∈ cs, ∀ y ∈ p.2.elems, d w y = p.1)
    (hrec : ∀ p ∈ cs, BkInv d p.2)
    (ih : ∀ p ∈ cs, BkInv d p.2 → BkInv d (insertNode d val p.2)) :
    BkInv d (Node.mk w (insertChildren d val (d w val) cs)) := by
  refine BkInv.mk _ _ ?_ ?_
  · intro p hp y hy
    rcases insertChildren_mem d val _ cs p hp with h1 | rfl | ⟨c, hc, rfl⟩
    · exact hdist p h1 y hy
    · simp only [elems_mk, elemsL_nil] at hy
      rcases List.mem_cons.1 hy with rfl | h2
      · rfl
      · cases h2
    · rcases insertNode_elems_sub d val c y hy with h1 | rfl
      · exact hdist (d w val, c) hc y h1
      · rfl
  · intro p hp
    rcases insertChildren_mem d val _ cs p hp with h1 | rfl | ⟨c, hc, rfl⟩
    · exact hrec p h1
    · exact BkInv.mk _ _ (by simp) (by simp)
    · exact ih (d w val, c) hc (hrec _ hc)

theorem insertNode_BkInv {T} (d : T → T → Int) (val : T) :
    ∀ n : Node T, BkInv d n → BkInv d (insertNode d val n) := by
  intro n
  induction n using Node.ind with
  | h w cs ih =>
    intro hinv
    cases hinv with
    | mk _ _ hdist hrec =>
      rw [insertNode]
      by_cases hk : d w val = 0
      · rw [if_pos hk]
        exact BkInv.mk _ _ hdist hrec
      · rw [if_neg hk]
        exact insertChildren_BkInv d val w cs hdist hrec
          (fun p hp _ => ih p hp (hrec p hp))

theorem insert_BkInv {T} (t : BkTree T) (val : T)
    (h : ∀ r, t.root = some r → BkInv t.dist r) :
    ∀ r, (t.insert val).root = some r → BkInv t.dist r := by
  unfold BkTree.insert
  cases htr : t.root with
  | none =>
    intro r hr
    simp at hr
    subst hr
    exact BkInv.mk _ _ (by simp) (by simp)
  | some root =>
    intro r hr
    simp at hr
    subst hr
    exact insertNode_BkInv t.dist val root (h root htr)

theorem build_BkInv {T} (d : T → T → Int) (ws : List T) :
    ∀ r, (build d ws).root = some r → BkInv d r := by
  suffices h : ∀ (t : BkTree T), t.dist = d → (∀ r, t.root = some r → BkInv d r) →
      ∀ r, (t.insertAll ws).root = some r → BkInv d r by
    exact h (BkTree.new d) rfl (by intro r hr; cases hr)
  induction ws with
  | nil => intro t _ ht; exact ht
  | cons w ws ih =>
    intro t hdist ht
    refine ih (t.insert w) (by rw [insert_dist, hdist]) ?_
    have := insert_BkInv t w (by rw [hdist]; exact ht)
    rw [hdist] at this
    exact this

theorem findGo_complete {T} (d : T → T → Int) (val : T) (m : Int)
    (hsym : ∀ a b, d a b = d b a) (htri : ∀ a b c, d a c ≤ d a b + d b c) :
    ∀ (fuel : Nat) (q : List (Node T)), queueSize q ≤ fuel →
      (∀ n ∈ q, BkInv d n) → ∀ y, y ∈ elemsQ q → d y val ≤ m →
        (y, d y val) ∈ findGo d val m fuel q := by
  intro fuel
  induction fuel with
  | zero =>
    intro q hq hinv y hy hle
    match q with
    | [] => simp at hy
    | n :: rest =>
      exfalso
      cases n with
      | mk w cs => simp at hq
  | succ fuel ih =>
    intro q hq hinv y hy hle
    match q with
    | [] => simp at hy
    | n :: rest =>
      cases n with
      | mk w cs =>
        rw [findGo]
        simp only [Node.word_mk, Node.children_mk]
        have hinvn := hinv (Node.mk w cs) (by simp)
        cases hinvn with
        | mk _ _ hdist hrec =>
          simp only [queueSize_cons, size_mk] at hq
          simp only [elemsQ_cons, elems_mk, List.mem_append, List.mem_cons] at hy
          have hnext : ∀ z ∈ elemsQ (rest ++ (cs.filter
              (fun p => ((p.1 - d w val).natAbs : Int) ≤ m)).map Prod.snd), d z val ≤ m →
              (z, d z val) ∈ findGo d val m fuel (rest ++ (cs.filter
                (fun p => ((p.1 - d w val).natAbs : Int) ≤ m)).map Prod.snd) := by
            intro z hz hzle
            refine ih _ ?_ ?_ z hz hzle
            · rw [queueSize_append]
              have := queueSize_filter_children cs
                (fun p => decide (((p.1 - d w val).natAbs : Int) ≤ m))
              omega
            · intro n2 hn2
              rcases List.mem_append.1 hn2 with h1 | h2
              · exact hinv n2 (by simp [h1])
              · obtain ⟨p, hp, rfl⟩ := List.mem_map.1 h2
                exact hrec p (List.mem_of_mem_filter hp)
          rcases hy with (rfl | hycs) | hyrest
          · apply List.mem_append.2
            left
            rw [if_pos hle]
            simp
          · obtain ⟨p, hp, hyp⟩ := elemsL_mem cs y hycs
            have harc : d w y = p.1 := hdist p hp y hyp
            have h1 : p.1 - d w val ≤ m := by
              have := htri w val y
              have := hsym val y
              omega
            have h2 : d w val - p.1 ≤ m := by
              have := htri w y val
              omega
            have hadm : p ∈ cs.filter
                (fun p2 => ((p2.1 - d w val).natAbs : Int) ≤ m) := by
              apply List.mem_filter.2
              refine ⟨hp, ?_⟩
              simp only [decide_eq_true_eq]
              omega
            apply List.mem_append.2
            right
            refine hnext y ?_ hle
            rw [elemsQ_append]
            apply List.mem_append.2
            right
            exact mem_elemsQ _ p.2 y (List.mem_map_of_mem Prod.snd hadm) hyp
          · apply List.mem_append.2
            right
            refine hnext y ?_ hle
            rw [elemsQ_append]
            exact List.mem_append.2 (Or.inl hyrest)

/-- Claim C1 (amended): for trees built by insertions with a metric that is
symmetric, satisfies identity and the triangle inequality, and additionally
identifies items at distance 0 (`d a b = 0 → a = b`), every inserted item
`x` with `d query x ≤ max_dist` appears in `find(query, max_dist)` paired
with its exact distance to the query; the pruning never excludes it. -/
theorem bk_find_complete {T} (d : T → T → Int) (ws : List T) (query x : T)
    (maxDist : Int)
    (hsym : ∀ a b, d a b = d b a) (hid : ∀ a, d a a = 0)
    (htri : ∀ a b c, d a c ≤ d a b + d b c)
    (hco : ∀ a b, d a b = 0 → a = b)
    (hx : x ∈ ws) (hdist : d query x ≤ maxDist) :
    (x, d x query) ∈ (build d ws).find query maxDist := by
  have hxel : x ∈ (build d ws).elems := mem_build d hco ws x hx
  have hinv := build_BkInv d ws
  unfold BkTree.find
  unfold BkTree.elems at hxel
  cases htr : (build d ws).root with
  | none => rw [htr] at hxel; simp at hxel
  | some r =>
    rw [htr] at hxel
    rw [build_dist]
    refine findGo_complete d query maxDist hsym htri r.size [r] (by simp) ?_ x ?_ ?_
    · intro n hn
      rcases List.mem_cons.1 hn with rfl | h
      · exact hinv n htr
      · cases h
    · simpa using hxel
    · rw [hsym]; exact hdist

/-- Witness for the amended C1 at a concrete metric and tree. -/
theorem bk_find_complete_witness :
    ((7 : Int), ((7 - (6 : Int)).natAbs : Int)) ∈
      (build (fun a b : Int => ((a - b).natAbs : Int)) [5, 7]).find 6 1 :=
  bk_find_complete (fun a b : Int => ((a - b).natAbs : Int)) [5, 7] 6 7 1
    (fun a b => show ((a - b).natAbs : Int) = ((b - a).natAbs : Int) by omega)
    (fun a => show ((a - a).natAbs : Int) = 0 by omega)
    (fun a b c => show ((a - c).natAbs : Int) ≤
      ((a - b).natAbs : Int) + ((b - c).natAbs : Int) by omega)
    (fun a b h => by
      have h2 : ((a - b).natAbs : Int) = 0 := h
      omega)
    (by decide) (by decide)

/-- Counterexample to C1 as stated: the constantly-zero pseudometric is
symmetric, satisfies identity and the triangle inequality, yet after
inserting `0` then `1` the item `1` is discarded as a distance-0 duplicate,
and `find(1, 0)` — whose bound `0` is at least the distance from the query
to `1` — does not contain `1` at all. -/
theorem bk_find_complete_cex :
    (∀ a b : Nat, (fun _ _ : Nat => (0 : Int)) a b = (fun _ _ : Nat => (0 : Int)) b a) ∧
      (∀ a : Nat, (fun _ _ : Nat => (0 : Int)) a a = 0) ∧
      (∀ a b c : Nat, (fun _ _ : Nat => (0 : Int)) a c ≤
        (fun _ _ : Nat => (0 : Int)) a b + (fun _ _ : Nat => (0 : Int)) b c) ∧
      (1 : Nat) ∈ [0, 1] ∧
      (fun _ _ : Nat => (0 : Int)) 1 1 ≤ 0 ∧
      (build (fun _ _ : Nat => (0 : Int)) [0, 1]).find 1 0 = [(0, 0)] ∧
      decide (((1 : Nat), (fun _ _ : Nat => (0 : Int)) 1 1) ∈
        (build (fun _ _ : Nat => (0 : Int)) [0, 1]).find 1 0) = false :=
  ⟨fun _ _ => rfl, fun _ => rfl, fun _ _ _ => by simp, by decide, by decide,
    by decide, by decide⟩

/-! ### Claim C7: metric axioms of the two reference metrics -/

theorem levRef_nil (ys : List Char) : levRef [] ys = ys.length := by
  rw [levRef]

theorem levRef_cons_nil (x : Char) (xs : List Char) :
    levRef (x :: xs) [] = xs.length + 1 := by
  rw [levRef]

theorem levRef_cons (x y : Char) (xs ys : List Char) :
    levRef (x :: xs) (y :: ys) =
      min ((if x = y then 0 else 1) + levRef xs ys)
        (min (1 + levRef xs (y :: ys)) (1 + levRef (x :: xs) ys)) := by
  rw [levRef]

theorem levRef_any_nil (zs : List Char) : levRef zs [] = zs.length := by
  match zs with
  | [] => rw [levRef_nil]
  | x :: xs => rw [levRef_cons_nil]; rfl

theorem levRef_symm : ∀ xs ys : List Char, levRef xs ys = levRef ys xs := by
  have main : ∀ (n : Nat) (xs ys : List Char), xs.length + ys.length = n →
      levRef xs ys = levRef ys xs := by
    intro n
    induction n using Nat.strong_induction_on with
    | _ n ih =>
      intro xs ys hn
      match xs, ys with
      | [], [] => rfl
      | [], y :: ys2 =>
        rw [levRef_nil, levRef_cons_nil]
        rfl
      | x :: xs2, [] =>
        rw [levRef_nil, levRef_cons_nil]
        rfl
      | x :: xs2, y :: ys2 =>
        subst hn
        rw [levRef_cons, levRef_cons]
        have h1 : levRef xs2 ys2 = levRef ys2 xs2 :=
          ih _ (by simp only [List.length_cons]; omega) xs2 ys2 rfl
        have h2 : levRef xs2 (y :: ys2) = levRef (y :: ys2) xs2 :=
          ih _ (by simp only [List.length_cons]; omega) _ _ rfl
        have h3 : levRef (x :: xs2) ys2 = levRef ys2 (x :: xs2) :=
          ih _ (by simp only [List.length_cons]; omega) _ _ rfl
        by_cases hxy : x = y
        · subst hxy
          rw [if_pos rfl]
          omega
        · rw [if_neg hxy, if_neg (show ¬ y = x from fun h => hxy h.symm)]
          omega
  exact fun xs ys => main (xs.length + ys.length) xs ys rfl

theorem levT_nil_right (xs : List Char) : levT xs [] = xs.length := by
  unfold levT
  rw [List.reverse_nil, levRef_any_nil, List.length_reverse]

theorem levT_nil_left (ys : List Char) : levT [] ys = ys.length := by
  unfold levT
  rw [List.reverse_nil, levRef_nil, List.length_reverse]

theorem levT_snoc_snoc (x y : Char) (xs ys : List Char) :
    levT (xs ++ [x]) (ys ++ [y]) =
      min ((if x = y then 0 else 1) + levT xs ys)
        (min (1 + levT xs (ys ++ [y])) (1 + levT (xs ++ [x]) ys)) := by
  unfold levT
  rw [List.reverse_append, List.reverse_append]
  simp only [List.reverse_singleton, List.singleton_append]
  rw [levRef_cons]

theorem levCell (res aDist bDist : Nat) :
    (if aDist > res then (if bDist > res then res + 1 else bDist)
      else if bDist > aDist then aDist + 1 else bDist) =
      min bDist (min (aDist + 1) (res + 1)) := by
  split_ifs <;> omega

theorem rowOf_nil_ys : ∀ (rem base : List Char),
    rowOf base rem [] = List.range' (base.length + 1) rem.length := by
  intro rem
  induction rem with
  | nil => intro base; rfl
  | cons c rest ih =>
    intro base
    rw [rowOf, levT_nil_right, ih (base ++ [c])]
    simp [List.range']

theorem levInner_spec (cb : Char) (ys : List Char) :
    ∀ (rem pre : List Char),
      levInner cb rem (rowOf pre rem ys) (levT pre ys) (levT pre (ys ++ [cb])) =
        (rowOf pre rem (ys ++ [cb]), levT (pre ++ rem) (ys ++ [cb])) := by
  intro rem
  induction rem with
  | nil =>
    intro pre
    rw [rowOf, rowOf, levInner]
    simp only [List.append_nil]
  | cons ca rest ih =>
    intro pre
    rw [rowOf, levInner]
    have hcell :
        (if levT (pre ++ [ca]) ys > levT pre (ys ++ [cb]) then
          (if (if ca = cb then levT pre ys else levT pre ys + 1) > levT pre (ys ++ [cb])
            then levT pre (ys ++ [cb]) + 1
            else (if ca = cb then levT pre ys else levT pre ys + 1))
          else if (if ca = cb then levT pre ys else levT pre ys + 1) > levT (pre ++ [ca]) ys
            then levT (pre ++ [ca]) ys + 1
            else (if ca = cb then levT pre ys else levT pre ys + 1)) =
          levT (pre ++ [ca]) (ys ++ [cb]) := by
      rw [levCell, levT_snoc_snoc]
      by_cases hxy : ca = cb
      · rw [if_pos hxy, if_pos hxy]
        omega
      · rw [if_neg hxy, if_neg hxy]
        omega
    rw [hcell]
    rw [ih (pre ++ [ca])]
    rw [rowOf]
    rw [show pre ++ ca :: rest = (pre ++ [ca]) ++ rest by simp]

theorem levInner_top (cb : Char) (ys : List Char) (ca : Char) (rest : List Char) :
    levInner cb (ca :: rest) (rowOf [] (ca :: rest) ys) ys.length ys.length =
      (rowOf [] (ca :: rest) (ys ++ [cb]), levT (ca :: rest) (ys ++ [cb])) := by
  rw [rowOf, levInner]
  simp only [List.nil_append]
  have hcell :
      (if levT [ca] ys > ys.length then
        (if (if ca = cb then ys.length else ys.length + 1) > ys.length
          then ys.length + 1
          else (if ca = cb then ys.length else ys.length + 1))
        else if (if ca = cb then ys.length else ys.length + 1) > levT [ca] ys
          then levT [ca] ys + 1
          else (if ca = cb then ys.length else ys.length + 1)) =
        levT [ca] (ys ++ [cb]) := by
    rw [levCell]
    have h1 : levT [ca] (ys ++ [cb]) =
        min ((if ca = cb then 0 else 1) + levT [] ys)
          (min (1 + levT [] (ys ++ [cb])) (1 + levT [ca] ys)) := by
      have := levT_snoc_snoc ca cb [] ys
      simpa using this
    rw [h1, levT_nil_left, levT_nil_left, List.length_append, List.length_singleton]
    by_cases hxy : ca = cb
    · rw [if_pos hxy, if_pos hxy]
      omega
    · rw [if_neg hxy, if_neg hxy]
      omega
  rw [hcell]
  rw [levInner_spec cb ys rest [ca]]
  rw [rowOf]
  simp

theorem levOuter_spec (ca : Char) (ta : List Char) :
    ∀ (bs ys : List Char) (res0 : Nat), bs ≠ [] →
      levOuter (ca :: ta) bs ys.length (rowOf [] (ca :: ta) ys) res0 =
        levT (ca :: ta) (ys ++ bs) := by
  intro bs
  induction bs with
  | nil => intro ys res0 h; exact absurd rfl h
  | cons cb bs2 ih =>
    intro ys res0 _
    rw [levOuter]
    rw [levInner_top cb ys ca ta]
    match bs2 with
    | [] =>
      rw [levOuter]
    | cb2 :: bs3 =>
      have hlen : ys.length + 1 = (ys ++ [cb]).length := by
        rw [List.length_append, List.length_singleton]
      rw [hlen, ih (ys ++ [cb]) (levT (ca :: ta) (ys ++ [cb])) (by simp)]
      rw [List.append_assoc]
      rfl

theorem levOuter_levRef (A B : List Char) (hA : A ≠ []) (hB : B ≠ []) :
    levOuter A B 0 (List.range' 1 A.length) 0 = levRef A.reverse B.reverse := by
  obtain ⟨ca, ta, rfl⟩ := List.exists_cons_of_ne_nil hA
  have h0 : List.range' 1 (ca :: ta).length = rowOf [] (ca :: ta) [] := by
    rw [rowOf_nil_ys]
    rfl
  rw [h0]
  have h2 := levOuter_spec ca ta B [] 0 hB
  simp only [List.length_nil, List.nil_append] at h2
  rw [h2]
  rfl

theorem levenshtein_symm (a b : String) :
    LevenshteinDistance.distance a b = LevenshteinDistance.distance b a := by
  unfold LevenshteinDistance.distance
  by_cases hab : a = b
  · subst hab
    rfl
  · have hba : ¬ b = a := fun h => hab h.symm
    rw [if_neg hab, if_neg hba]
    by_cases ha : a.data.length = 0
    · have hadata : a.data = [] := List.length_eq_zero.1 ha
      have hbne : ¬ b.data.length = 0 := by
        intro hb
        apply hab
        cases a with
        | mk ad =>
          cases b with
          | mk bd =>
            have hbdata : bd = [] := List.length_eq_zero.1 hb
            simp only at hadata
            rw [hadata, hbdata]
      rw [if_pos ha, if_neg hbne, if_pos ha]
    · by_cases hb : b.data.length = 0
      · rw [if_neg ha, if_pos hb, if_pos hb]
      · rw [if_neg ha, if_neg hb, if_neg hb, if_neg ha]
        have hA : a.data ≠ [] := fun h => ha (by rw [h]; rfl)
        have hB : b.data ≠ [] := fun h => hb (by rw [h]; rfl)
        rw [levOuter_levRef a.data b.data hA hB, levOuter_levRef b.data a.data hB hA,
          levRef_symm]

/-- Claim C7: both reference metrics satisfy identity
(`distance(x, x) == 0`) and symmetry (`distance(a, b) == distance(b, a)`),
for all inputs. -/
theorem metric_identity_symmetry :
    (∀ x : Nat, HammingDistance.distance x x = 0) ∧
      (∀ s : String, LevenshteinDistance.distance s s = 0) ∧
      (∀ a b : Nat, HammingDistance.distance a b = HammingDistance.distance b a) ∧
      (∀ a b : String,
        LevenshteinDistance.distance a b = LevenshteinDistance.distance b a) := by
  refine ⟨?_, ?_, ?_, ?_⟩
  · intro x
    unfold HammingDistance.distance
    rw [Nat.xor_self]
    simp [popCount]
  · intro s
    unfold LevenshteinDistance.distance
    rw [if_pos rfl]
  · intro a b
    unfold HammingDistance.distance
    rw [Nat.xor_comm]
  · exact levenshtein_symm

end BK
